import Mathlib

/-!
Verification of the aquabat acquisition/display pipeline.

This file gives a shallow embedding of the two Python modules of the
repository and proves properties of the embedded definitions.

From `main.py`:
  * `get_newest_file` lists the files of the data directory matching the
    glob `1*.txt`, sorts them (Python `sorted`, i.e. code-point
    lexicographic order on the names), and returns the second-to-last,
    returning `none` when the catch of `IndexError` fires (fewer than two
    matching files).  Directories are embedded as lists of file names.
  * `get_single_channel_data` reads a window file row by row, splits each
    row at commas and converts the field of the selected channel with
    Python `float`.  Files are embedded as lists of rows, a row being the
    list of its comma-separated fields.  An out-of-range column index
    raises `IndexError` (embedded as `DecodeError.malformedRow`), a field
    rejected by `float` raises `ValueError` (embedded as
    `DecodeError.parseError`), and either exception aborts the whole read.
  * `SyncedPlots.update` resolves the newest complete file once per timer
    tick and hands the very same reference to every channel widget and to
    the time-series widget, or does nothing when no file resolves.

From `simple_scan.py`:
  * the acquisition loop appends one sample row per iteration to
    `file_buffer` and, as soon as `len(file_buffer) >= sample_rate *
    file_duration`, rotates: it derives the file name from
    `aq_start_time`, advances `aq_start_time` by `file_duration`, spawns
    `dump_csv_data` on a thread, waits for the `made_copy` event and
    resets `file_buffer` to a fresh empty list;
  * `dump_csv_data` deep-copies the handed buffer, sets the `made_copy`
    event, and only then writes the copy to the window file.

The rotation handoff is embedded as a two-thread transition system with an
explicit heap (Python lists are references), quantified over all
schedules; the rest is embedded as pure functions.
-/

/-! ### Python string order

Python `sorted` compares strings lexicographically by code point.  The
Mathlib order on `String` is the same order, but its `Decidable` instance
is built on `String.ltb`, which the kernel cannot evaluate, so the
comparison is embedded directly on the underlying character lists.
-/

/-- Lexicographic (code-point) order on character lists: the embedding of
Python string comparison as used by `sorted`. -/
def lexLe : List Char → List Char → Bool
  | [], _ => true
  | _ :: _, [] => false
  | a :: as, b :: bs =>
    decide (a.toNat < b.toNat) || (decide (a.toNat = b.toNat) && lexLe as bs)

/-- Python string order `a <= b` on whole strings. -/
def pyLe (a b : String) : Prop := lexLe a.data b.data = true

instance : DecidableRel pyLe := fun a b => by
  unfold pyLe; infer_instance

theorem lexLe_refl (a : List Char) : lexLe a a = true := by
  induction a with
  | nil => rfl
  | cons x xs ih => simp [lexLe, ih]

theorem lexLe_total (a b : List Char) : lexLe a b = true ∨ lexLe b a = true := by
  induction a generalizing b with
  | nil => left; rfl
  | cons x xs ih =>
    cases b with
    | nil => right; rfl
    | cons y ys =>
      simp only [lexLe, Bool.or_eq_true, decide_eq_true_eq, Bool.and_eq_true]
      rcases Nat.lt_trichotomy x.toNat y.toNat with h | h | h
      · left; left; exact h
      · rcases ih ys with h2 | h2
        · left; right; exact ⟨h, h2⟩
        · right; right; exact ⟨h.symm, h2⟩
      · right; left; exact h

theorem lexLe_trans (a b c : List Char)
    (hab : lexLe a b = true) (hbc : lexLe b c = true) : lexLe a c = true := by
  induction a generalizing b c with
  | nil => rfl
  | cons x xs ih =>
    cases b with
    | nil => simp [lexLe] at hab
    | cons y ys =>
      cases c with
      | nil => simp [lexLe] at hbc
      | cons z zs =>
        simp only [lexLe, Bool.or_eq_true, decide_eq_true_eq, Bool.and_eq_true] at *
        rcases hab with h1 | ⟨h1, h1'⟩
        · rcases hbc with h2 | ⟨h2, h2'⟩
          · exact Or.inl (h1.trans h2)
          · exact Or.inl (h2 ▸ h1)
        · rcases hbc with h2 | ⟨h2, h2'⟩
          · exact Or.inl (h1 ▸ h2)
          · exact Or.inr ⟨h1.trans h2, ih ys zs h1' h2'⟩

instance : IsRefl String pyLe := ⟨fun a => lexLe_refl a.data⟩

instance : IsTotal String pyLe := ⟨fun a b => lexLe_total a.data b.data⟩

instance : IsTrans String pyLe := ⟨fun a b c => lexLe_trans a.data b.data c.data⟩

/-! ### The newest-complete-file selector (`get_newest_file` in `main.py`) -/

/-- A file name matches the glob `1*.txt` exactly when it starts with the
character `1`, ends with `.txt`, and is long enough for the two pattern
parts not to overlap. -/
def matchesGlob (s : String) : Bool :=
  decide (s.data.head? = some '1') &&
  decide (s.data.reverse.take 4 = ['t', 'x', 't', '.']) &&
  decide (5 ≤ s.data.length)

/-- Embedding of `get_newest_file`: filter the directory listing by the
glob `1*.txt`, sort the names in Python string order, and take the
element at index `-2`; Python raises `IndexError` (caught, giving `None`)
exactly when fewer than two names match. -/
def get_newest_file (dir : List String) : Option String :=
  let files := List.insertionSort pyLe (dir.filter matchesGlob)
  if 2 ≤ files.length then files.get? (files.length - 2) else none

/-! ### The channel decoder (`get_single_channel_data` in `main.py`) -/

/-- Numeric value of a digit string, most significant digit first. -/
def natOfDigits (l : List Char) : ℕ :=
  l.foldl (fun n c => 10 * n + (c.toNat - '0'.toNat)) 0

/-- Value of an unsigned mantissa as accepted by Python `float`: digits
with at most one point and at least one digit. -/
def parseMantissa (l : List Char) : Option ℚ :=
  let ip := l.takeWhile (fun c => c != '.')
  match l.dropWhile (fun c => c != '.') with
  | [] =>
    if l ≠ [] && l.all Char.isDigit then some (natOfDigits l) else none
  | _ :: frac =>
    if (ip ≠ [] || frac ≠ []) && ip.all Char.isDigit && frac.all Char.isDigit then
      some ((natOfDigits ip : ℚ) + (natOfDigits frac : ℚ) / (10 : ℚ) ^ frac.length)
    else none

/-- Value of an exponent part as accepted by Python `float`: an optional
sign followed by at least one digit. -/
def parseExp (l : List Char) : Option ℤ :=
  match l with
  | '-' :: ds =>
    if ds ≠ [] && ds.all Char.isDigit then some (-(natOfDigits ds : ℤ)) else none
  | '+' :: ds =>
    if ds ≠ [] && ds.all Char.isDigit then some (natOfDigits ds) else none
  | ds =>
    if ds ≠ [] && ds.all Char.isDigit then some (natOfDigits ds) else none

/-- Value of an unsigned `float` literal: a mantissa optionally followed
by `e` or `E` and an exponent, as in `1e-05` or `3.25E+18`, the forms
`str` uses for floats of small or large magnitude. -/
def parseUnsignedFloat (l : List Char) : Option ℚ :=
  let mant := l.takeWhile (fun c => c != 'e' && c != 'E')
  match l.dropWhile (fun c => c != 'e' && c != 'E') with
  | [] => parseMantissa mant
  | _ :: ex =>
    match parseMantissa mant, parseExp ex with
    | some m, some e => some (m * (10 : ℚ) ^ e)
    | _, _ => none

/-- Leading and trailing whitespace, which Python `float` ignores (the
newline a `readlines` line leaves on the last comma-split field, for
example). -/
def pyStrip (l : List Char) : List Char :=
  ((l.dropWhile Char.isWhitespace).reverse.dropWhile Char.isWhitespace).reverse

/-- Embedding of Python `float(s)` on the literals the window writer can
produce — optional surrounding whitespace, an optional sign, decimal or
exponent notation: `none` is the `ValueError` outcome.  The named
non-finite values `inf` and `nan` have no rational value and are outside
this embedding, and the digit-group underscores `float` also accepts
never occur in `str` output. -/
def parseFloat (s : String) : Option ℚ :=
  match pyStrip s.data with
  | '-' :: rest => (parseUnsignedFloat rest).map (fun q => -q)
  | '+' :: rest => parseUnsignedFloat rest
  | l => parseUnsignedFloat l

/-- The two decoding failures of `get_single_channel_data`:
`malformedRow` is the `IndexError` raised by `channel_data[selected_channel]`
on a row with too few fields, `parseError` is the `ValueError` raised by
`float` on a non-numeric field. -/
inductive DecodeError where
  | malformedRow
  | parseError
deriving DecidableEq

/-- Embedding of `get_single_channel_data`: for each row in order, index
the comma-split fields at `selected_channel` and convert with `float`;
the first exception aborts the whole call, so an error yields no data at
all. -/
def get_single_channel_data (selected_channel : ℕ) :
    List (List String) → Except DecodeError (List ℚ)
  | [] => .ok []
  | row :: rest =>
    match row.get? selected_channel with
    | none => .error .malformedRow
    | some field =>
      match parseFloat field with
      | none => .error .parseError
      | some v =>
        match get_single_channel_data selected_channel rest with
        | .error e => .error e
        | .ok vs => .ok (v :: vs)

/-- One `get_single_channel_data` call per requested channel, in channel
order, as the plot widgets do; the first failing channel read aborts the
whole decode. -/
def decodeChannels : List ℕ → List (List String) → Except DecodeError (List (List ℚ))
  | [], _ => .ok []
  | c :: cs, rows =>
    match get_single_channel_data c rows with
    | .error e => .error e
    | .ok series =>
      match decodeChannels cs rows with
      | .error e => .error e
      | .ok rest => .ok (series :: rest)

/-- Decode one window file into one series per channel `0 .. channel_count - 1`. -/
def decode (channel_count : ℕ) (rows : List (List String)) :
    Except DecodeError (List (List ℚ)) :=
  decodeChannels (List.range channel_count) rows

/-- Chronological order of two window-file base names: both parse as
timestamps and the first is strictly earlier. -/
def chronoLt (s1 s2 : String) : Prop :=
  ∃ t1 t2 : ℚ, parseFloat s1 = some t1 ∧ parseFloat s2 = some t2 ∧ t1 < t2

/-! ### The refresh tick (`SyncedPlots.update` in `main.py`) -/

/-- Embedding of one `SyncedPlots.update` tick over an abstract resolver:
`resolver k` is the answer the newest-complete-file selector would give
on its `k`-th call during the tick.  The code calls the selector exactly
once (`resolver 0`) and, when a file resolves, hands that single result
to the channel widgets `0 .. n - 1` and then to the time-series widget
(consumer index `n`); when none resolves, no consumer is invoked.  The
result is the invocation list: consumer index paired with the file
reference it receives. -/
def syncedUpdate (resolver : ℕ → Option String) (n : ℕ) : List (ℕ × String) :=
  match resolver 0 with
  | some f => ((List.range n).map fun i => (i, f)) ++ [(n, f)]
  | none => []

/-- `SyncedPlots.update` with the resolver of the source, `get_newest_file`
on the configured data directory. -/
def SyncedPlotsUpdate (dir : List String) (n : ℕ) : List (ℕ × String) :=
  syncedUpdate (fun _ => get_newest_file dir) n

/-! ### The acquisition loop buffer rotation (`main` in `simple_scan.py`) -/

/-- One sample row: one float per scanned channel, as appended to
`file_buffer` each loop iteration. -/
abbrev SampleRow := List ℚ

/-- The rotation-relevant state of the acquisition loop: the in-memory
`file_buffer`, the nominal window-start timestamp `aq_start_time`, and
the window files handed off so far, each named by the timestamp it was
given at rotation. -/
structure ScanState where
  fileBuffer : List SampleRow
  aqStart : ℚ
  files : List (ℚ × List SampleRow)
deriving DecidableEq

/-- Embedding of one iteration of the acquisition loop body for sample
rate `R` and file duration `D`: append the current sample row, then, if
`len(file_buffer) >= R * D`, rotate — emit the buffer as a window file
named by the current `aq_start_time`, advance `aq_start_time` by exactly
`D`, and reset the buffer. -/
def scanStep (R D : ℕ) (s : ScanState) (row : SampleRow) : ScanState :=
  let buf := s.fileBuffer ++ [row]
  if R * D ≤ buf.length then
    { fileBuffer := [], aqStart := s.aqStart + (D : ℚ),
      files := s.files ++ [(s.aqStart, buf)] }
  else
    { s with fileBuffer := buf }

/-- The acquisition loop run over a finite stream of sample rows. -/
def runScan (R D : ℕ) (s : ScanState) (rows : List SampleRow) : ScanState :=
  rows.foldl (scanStep R D) s

/-- Loop state at acquisition start: empty buffer, no files written,
`aq_start_time` as read from the wall clock once. -/
def initScan (t0 : ℚ) : ScanState := ⟨[], t0, []⟩

/-! ### The rotation handoff (`dump_csv_data` plus the rotation block of
`main` in `simple_scan.py`)

Python lists are heap references, so the handoff is embedded as a
two-thread transition system over an explicit heap: list objects live at
natural-number references, `file_buffer` is the reference held by the
acquisition loop, and the spawned `dump_csv_data` thread holds the
reference passed at spawn time.  Each Python statement of the handoff is
one atomic instruction; a schedule chooses which thread steps next, and
claims are proved over all schedules. -/

/-- The statements of `dump_csv_data`, in program order:
`wcopy` is `clone = deepcopy(data)`, `wsignal` is `made_copy.set()`,
`wwrite` is the `csv_writer.writerows(clone)` file write. -/
inductive WriterInstr where
  | wcopy
  | wsignal
  | wwrite
deriving DecidableEq

/-- The post-spawn statements of the acquisition loop, in program order:
`mwait` is `made_copy.wait()` (blocking until the event is set),
`mclear` is `file_buffer = []` (rebinding to a fresh empty list), and
`mappend r` is a subsequent `file_buffer.append(...)` of the next
window. -/
inductive MainInstr where
  | mwait
  | mclear
  | mappend (r : SampleRow)
deriving DecidableEq

/-- Observable events, one per executed instruction, used to state
ordering properties of the handoff. -/
inductive RotEvent where
  | copied
  | signaled
  | wrote
  | waited
  | cleared
  | appended
deriving DecidableEq

/-- A configuration of the two-thread handoff: the heap of list objects,
an allocation pointer, the reference currently bound to `file_buffer`,
the reference the writer thread received as `data`, the writer-local
deep copy (a value, hence isolated), the `made_copy` event flag, the
content written to the window file (if written yet), the remaining
program of each thread, and the event log. -/
structure RotConfig where
  heap : ℕ → List SampleRow
  fresh : ℕ
  bufRef : ℕ
  dataRef : ℕ
  clone : Option (List SampleRow)
  madeCopy : Bool
  fileWritten : Option (List SampleRow)
  wprog : List WriterInstr
  mprog : List MainInstr
  log : List RotEvent

/-- The program of `dump_csv_data`: deep copy, set the event, write. -/
def dump_csv_data_prog : List WriterInstr :=
  [.wcopy, .wsignal, .wwrite]

/-- The program of the acquisition loop from the moment it spawns the
writer: wait on `made_copy`, rebind `file_buffer` to a fresh list, then
append the rows of the next window. -/
def mainRotProg (apps : List SampleRow) : List MainInstr :=
  .mwait :: .mclear :: apps.map MainInstr.mappend

/-- Configuration at rotation time: the buffer object holding the rows
`B` of the closed window lives at reference 0, bound to `file_buffer`
and passed as `data` to the just-spawned writer; nothing is copied,
signaled, or written yet. -/
def initRot (B : List SampleRow) (apps : List SampleRow) : RotConfig :=
  { heap := fun n => if n = 0 then B else []
    fresh := 1
    bufRef := 0
    dataRef := 0
    clone := none
    madeCopy := false
    fileWritten := none
    wprog := dump_csv_data_prog
    mprog := mainRotProg apps
    log := [] }

/-- One step of the writer thread.  `wcopy` captures the current value
of the list `data` points to (`deepcopy` semantics: a value, not a
reference), `wsignal` sets the event, `wwrite` writes the captured copy
to the window file. -/
def stepWriter (c : RotConfig) : RotConfig :=
  match c.wprog with
  | [] => c
  | .wcopy :: rest =>
    { c with clone := some (c.heap c.dataRef), wprog := rest,
             log := c.log ++ [.copied] }
  | .wsignal :: rest =>
    { c with madeCopy := true, wprog := rest, log := c.log ++ [.signaled] }
  | .wwrite :: rest =>
    { c with fileWritten := c.clone, wprog := rest, log := c.log ++ [.wrote] }

/-- One step of the acquisition loop.  `mwait` can only proceed once the
event is set (a blocked thread stays put), `mclear` rebinds
`file_buffer` to a freshly allocated empty list, and `mappend` mutates
the list `file_buffer` currently points to. -/
def stepMain (c : RotConfig) : RotConfig :=
  match c.mprog with
  | [] => c
  | .mwait :: rest =>
    if c.madeCopy then { c with mprog := rest, log := c.log ++ [.waited] } else c
  | .mclear :: rest =>
    { c with bufRef := c.fresh, heap := Function.update c.heap c.fresh [],
             fresh := c.fresh + 1, mprog := rest, log := c.log ++ [.cleared] }
  | .mappend r :: rest =>
    { c with heap := Function.update c.heap c.bufRef (c.heap c.bufRef ++ [r]),
             mprog := rest, log := c.log ++ [.appended] }

/-- One scheduled step: `true` steps the writer thread, `false` the
acquisition loop. -/
def stepRot (c : RotConfig) (tid : Bool) : RotConfig :=
  if tid then stepWriter c else stepMain c

/-- Run the handoff under a schedule. -/
def runRot (sched : List Bool) (c : RotConfig) : RotConfig :=
  sched.foldl stepRot c

/-- Both threads have executed their whole program. -/
def completedRot (c : RotConfig) : Prop :=
  c.wprog = [] ∧ c.mprog = []

instance (c : RotConfig) : Decidable (completedRot c) := by
  unfold completedRot
  infer_instance

/-- Writer-thread invariant, indexed by how much of
`dump_csv_data_prog` remains: once `wcopy` has run the clone is exactly
the rotation-time buffer `B`; the event is set exactly once `wsignal`
has run; the file holds exactly `B` once `wwrite` has run; and the log
records exactly the executed writer instructions. -/
def WState (B : List SampleRow) (w : List WriterInstr)
    (cl : Option (List SampleRow)) (mc : Bool)
    (fw : Option (List SampleRow)) (log : List RotEvent) : Prop :=
  (w = [.wcopy, .wsignal, .wwrite] ∧ cl = none ∧ mc = false ∧ fw = none ∧
    RotEvent.copied ∉ log ∧ RotEvent.signaled ∉ log ∧ RotEvent.wrote ∉ log) ∨
  (w = [.wsignal, .wwrite] ∧ cl = some B ∧ mc = false ∧ fw = none ∧
    RotEvent.copied ∈ log ∧ RotEvent.signaled ∉ log ∧ RotEvent.wrote ∉ log) ∨
  (w = [.wwrite] ∧ cl = some B ∧ mc = true ∧ fw = none ∧
    RotEvent.copied ∈ log ∧ RotEvent.signaled ∈ log ∧ RotEvent.wrote ∉ log) ∨
  (w = [] ∧ cl = some B ∧ mc = true ∧ fw = some B ∧
    RotEvent.copied ∈ log ∧ RotEvent.signaled ∈ log ∧ RotEvent.wrote ∈ log)

/-- Global invariant of the handoff, preserved by every step of either
thread under every schedule. -/
structure RotInv (B apps : List SampleRow) (c : RotConfig) : Prop where
  dataRef0 : c.dataRef = 0
  freshPos : 1 ≤ c.fresh
  heap0 : c.heap 0 = B
  mstate : ∃ k, c.mprog = (mainRotProg apps).drop k ∧
    (c.madeCopy = false → k = 0) ∧
    (2 ≤ k → 1 ≤ c.bufRef) ∧
    (RotEvent.cleared ∈ c.log ↔ 2 ≤ k)
  wstate : WState B c.wprog c.clone c.madeCopy c.fileWritten c.log
  ordCS : RotEvent.signaled ∈ c.log →
    RotEvent.copied ∈ c.log ∧
    c.log.indexOf RotEvent.copied < c.log.indexOf RotEvent.signaled
  ordSW : RotEvent.wrote ∈ c.log →
    RotEvent.signaled ∈ c.log ∧
    c.log.indexOf RotEvent.signaled < c.log.indexOf RotEvent.wrote
  ordSC : RotEvent.cleared ∈ c.log →
    RotEvent.signaled ∈ c.log ∧
    c.log.indexOf RotEvent.signaled < c.log.indexOf RotEvent.cleared

/-! ### Theorems -/

/-- Invariant of the acquisition loop: after `n` processed rows the
buffer holds `n % (R * D)` rows, `n / (R * D)` window files have been
emitted, every emitted window holds exactly `R * D` rows, and the `k`-th
window is stamped `t0 + k * D`. -/
theorem runScan_inv (R D : ℕ) (hRD : 1 ≤ R * D) (t0 : ℚ) (rows : List SampleRow) :
    ∀ (n : ℕ) (s : ScanState),
      s.fileBuffer.length = n % (R * D) →
      s.files.length = n / (R * D) →
      (∀ f ∈ s.files, (f.2).length = R * D) →
      (∀ i (h : i < s.files.length), (s.files.get ⟨i, h⟩).1 = t0 + (i : ℚ) * (D : ℚ)) →
      s.aqStart = t0 + (s.files.length : ℚ) * (D : ℚ) →
      (runScan R D s rows).fileBuffer.length = (n + rows.length) % (R * D) ∧
      (runScan R D s rows).files.length = (n + rows.length) / (R * D) ∧
      (∀ f ∈ (runScan R D s rows).files, (f.2).length = R * D) ∧
      (∀ i (h : i < (runScan R D s rows).files.length),
        ((runScan R D s rows).files.get ⟨i, h⟩).1 = t0 + (i : ℚ) * (D : ℚ)) ∧
      (runScan R D s rows).aqStart =
        t0 + ((runScan R D s rows).files.length : ℚ) * (D : ℚ) := by
  induction rows with
  | nil =>
    intro n s h1 h2 h3 h4 h5
    exact ⟨h1, h2, h3, h4, h5⟩
  | cons row rest ih =>
    intro n s h1 h2 h3 h4 h5
    have h0 : 0 < R * D := by omega
    have hq := Nat.div_add_mod n (R * D)
    have hstep : runScan R D s (row :: rest) = runScan R D (scanStep R D s row) rest := rfl
    have hlen3 : n + (row :: rest).length = (n + 1) + rest.length := by
      simp only [List.length_cons]
      omega
    rw [hstep, hlen3]
    have hbuf : (s.fileBuffer ++ [row]).length = n % (R * D) + 1 := by
      simpa using h1
    by_cases hrot : R * D ≤ (s.fileBuffer ++ [row]).length
    · -- rotation fires: the buffer reached exactly R * D rows
      have hexact : n % (R * D) + 1 = R * D := by
        have := Nat.mod_lt n h0
        omega
      have hdist : (R * D) * (n / (R * D) + 1) = (R * D) * (n / (R * D)) + (R * D) := by
        ring
      have hn1 : n + 1 = (R * D) * (n / (R * D) + 1) := by omega
      have hmod : (n + 1) % (R * D) = 0 := by
        rw [hn1]; exact Nat.mul_mod_right _ _
      have hdiv : (n + 1) / (R * D) = n / (R * D) + 1 := by
        rw [hn1]; exact Nat.mul_div_cancel_left _ h0
      have hstate : scanStep R D s row =
          { fileBuffer := [], aqStart := s.aqStart + (D : ℚ),
            files := s.files ++ [(s.aqStart, s.fileBuffer ++ [row])] } := by
        unfold scanStep
        rw [if_pos hrot]
      rw [hstate]
      refine ih (n + 1)
        { fileBuffer := [], aqStart := s.aqStart + (D : ℚ),
          files := s.files ++ [(s.aqStart, s.fileBuffer ++ [row])] }
        hmod.symm ?_ ?_ ?_ ?_
      · show (s.files ++ [(s.aqStart, s.fileBuffer ++ [row])]).length = (n + 1) / (R * D)
        simp only [List.length_append, List.length_singleton]
        rw [hdiv, h2]
      · intro f hf
        rcases List.mem_append.mp hf with hf | hf
        · exact h3 f hf
        · simp only [List.mem_singleton] at hf
          rw [hf]
          exact hbuf.trans hexact
      · intro i h
        have h' : i < s.files.length + 1 := by simpa using h
        by_cases hi : i < s.files.length
        · have hg : ((s.files ++ [(s.aqStart, s.fileBuffer ++ [row])]).get ⟨i, h⟩)
              = s.files.get ⟨i, hi⟩ := by
            simp [List.get_eq_getElem, List.getElem_append_left hi]
          rw [hg]
          exact h4 i hi
        · have hieq : i = s.files.length := by omega
          subst hieq
          have hg : ((s.files ++ [(s.aqStart, s.fileBuffer ++ [row])]).get
              ⟨s.files.length, h⟩) = (s.aqStart, s.fileBuffer ++ [row]) := by
            simp [List.get_eq_getElem]
          rw [hg]
          exact h5.trans (by rw [h2])
      · show s.aqStart + (D : ℚ) =
          t0 + ((s.files ++ [(s.aqStart, s.fileBuffer ++ [row])]).length : ℚ) * (D : ℚ)
        simp only [List.length_append, List.length_singleton]
        rw [h5]
        push_cast
        ring
    · -- no rotation: the buffer is still short of R * D rows
      have hlt : n % (R * D) + 1 < R * D := by omega
      have hsplit : n + 1 = (n % (R * D) + 1) + (R * D) * (n / (R * D)) := by omega
      have hmod : (n + 1) % (R * D) = n % (R * D) + 1 := by
        rw [hsplit, Nat.add_mul_mod_self_left]
        exact Nat.mod_eq_of_lt hlt
      have hdiv : (n + 1) / (R * D) = n / (R * D) := by
        rw [hsplit, Nat.add_mul_div_left _ _ h0, Nat.div_eq_of_lt hlt, Nat.zero_add]
      have hstate : scanStep R D s row =
          { s with fileBuffer := s.fileBuffer ++ [row] } := by
        unfold scanStep
        rw [if_neg hrot]
      rw [hstate]
      refine ih (n + 1) { s with fileBuffer := s.fileBuffer ++ [row] }
        ?_ ?_ h3 h4 h5
      · show (s.fileBuffer ++ [row]).length = (n + 1) % (R * D)
        rw [hmod]
        exact hbuf
      · show s.files.length = (n + 1) / (R * D)
        rw [hdiv]
        exact h2

/-- Claim C6: with configured rate `R` and window duration `D`, the loop
rotates exactly once per `R * D` appended rows and never earlier: after
any row stream, the number of emitted window files is the row count
divided by `R * D`, every emitted window holds exactly `R * D` rows, and
the rows short of the next boundary are still in the buffer. -/
theorem rotation_every_RD_rows (R D : ℕ) (hRD : 1 ≤ R * D) (t0 : ℚ)
    (rows : List SampleRow) :
    (runScan R D (initScan t0) rows).files.length = rows.length / (R * D) ∧
    (runScan R D (initScan t0) rows).fileBuffer.length = rows.length % (R * D) ∧
    ∀ f ∈ (runScan R D (initScan t0) rows).files, (f.2).length = R * D := by
  have := runScan_inv R D hRD t0 rows 0 (initScan t0)
    (by simp [initScan]) (by simp [initScan]) (by simp [initScan])
    (by simp [initScan]) (by simp [initScan])
  exact ⟨by simpa using this.2.1, by simpa using this.1, this.2.2.1⟩

/-- Claim C6 witness: rate 2, duration 1, five appended rows give two
complete windows of two rows each and one buffered row. -/
theorem rotation_every_RD_rows_witness :
    1 ≤ 2 * 1 ∧
    (runScan 2 1 (initScan 100) [[1], [2], [3], [4], [5]]).files.length = 5 / (2 * 1) ∧
    (runScan 2 1 (initScan 100) [[1], [2], [3], [4], [5]]).fileBuffer.length = 5 % (2 * 1) ∧
    ∀ f ∈ (runScan 2 1 (initScan 100) [[1], [2], [3], [4], [5]]).files,
      (f.2).length = 2 * 1 := by
  have h := rotation_every_RD_rows 2 1 (by decide) 100 [[1], [2], [3], [4], [5]]
  exact ⟨by decide, by simpa using h.1, by simpa using h.2.1, h.2.2⟩

/-- Claim C7: the nominal window-start timestamp advances by exactly the
configured duration at each rotation: the `i`-th emitted window is
stamped `t0 + i * D`, so each window is stamped exactly `D` later than
the one before, independent of any wall clock. -/
theorem window_start_advances_by_duration (R D : ℕ) (hRD : 1 ≤ R * D) (t0 : ℚ)
    (rows : List SampleRow) (i : ℕ)
    (h : i < (runScan R D (initScan t0) rows).files.length) :
    ((runScan R D (initScan t0) rows).files.get ⟨i, h⟩).1 = t0 + (i : ℚ) * (D : ℚ) ∧
    ∀ h1 : i + 1 < (runScan R D (initScan t0) rows).files.length,
      ((runScan R D (initScan t0) rows).files.get ⟨i + 1, h1⟩).1 =
        ((runScan R D (initScan t0) rows).files.get ⟨i, h⟩).1 + (D : ℚ) := by
  have hinv := runScan_inv R D hRD t0 rows 0 (initScan t0)
    (by simp [initScan]) (by simp [initScan]) (by simp [initScan])
    (by simp [initScan]) (by simp [initScan])
  have hts := hinv.2.2.2.1
  refine ⟨hts i h, ?_⟩
  intro h1
  rw [hts (i + 1) h1, hts i h]
  push_cast
  ring

/-- Claim C7 witness: with rate 2, duration 3 and start stamp 100, the
second window is stamped exactly one duration after the first. -/
theorem window_start_advances_by_duration_witness :
    1 ≤ 2 * 3 ∧
    1 < (runScan 2 3 (initScan 100) [[1], [2], [3], [4], [5], [6], [7], [8], [9], [10], [11],
      [12], [13]]).files.length ∧
    ((runScan 2 3 (initScan 100) [[1], [2], [3], [4], [5], [6], [7], [8], [9], [10], [11],
      [12], [13]]).files.get ⟨1, by decide⟩).1 = 100 + (1 : ℚ) * (3 : ℚ) := by
  have h := window_start_advances_by_duration 2 3 (by decide) 100
    [[1], [2], [3], [4], [5], [6], [7], [8], [9], [10], [11], [12], [13]] 1 (by decide)
  exact ⟨by decide, by decide, h.1⟩

/-- Claim C5: each refresh tick resolves the newest-complete file once
and, when a file resolves, hands that identical reference to every
registered consumer — each of the `n` channel widgets and the
time-series widget exactly once — while a tick with no resolved file
invokes no consumer; the invocations depend only on the single resolver
call made at the start of the tick. -/
theorem refresh_tick_fanout (dir : List String) (n : ℕ)
    (resolver resolver' : ℕ → Option String) :
    (∀ f, get_newest_file dir = some f →
      SyncedPlotsUpdate dir n = (List.range (n + 1)).map (fun i => (i, f)) ∧
      (∀ p ∈ SyncedPlotsUpdate dir n, p.2 = f) ∧
      (∀ i, i ≤ n → (i, f) ∈ SyncedPlotsUpdate dir n) ∧
      (SyncedPlotsUpdate dir n).Nodup) ∧
    (get_newest_file dir = none → SyncedPlotsUpdate dir n = []) ∧
    (resolver 0 = resolver' 0 → syncedUpdate resolver n = syncedUpdate resolver' n) := by
  refine ⟨?_, ?_, ?_⟩
  · intro f hf
    have heq : SyncedPlotsUpdate dir n = (List.range (n + 1)).map (fun i => (i, f)) := by
      simp [SyncedPlotsUpdate, syncedUpdate, hf, List.range_succ]
    refine ⟨heq, ?_, ?_, ?_⟩
    · intro p hp
      rw [heq] at hp
      obtain ⟨i, _, rfl⟩ := List.mem_map.mp hp
      rfl
    · intro i hi
      rw [heq]
      exact List.mem_map.mpr ⟨i, List.mem_range.mpr (by omega), rfl⟩
    · rw [heq]
      exact List.Nodup.map (fun a b hab => (Prod.mk.injEq _ _ _ _).mp hab |>.1)
        (List.nodup_range _)
  · intro hf
    show syncedUpdate _ n = []
    unfold syncedUpdate
    rw [hf]
  · intro hr
    unfold syncedUpdate
    rw [hr]

/-- Claim C5 witness: with two channel widgets plus the time-series
widget and the three-file directory, all three consumers receive the one
resolved file `101.0.txt`; a directory with no matching pair dispatches
nothing. -/
theorem refresh_tick_fanout_witness :
    SyncedPlotsUpdate ["100.0.txt", "101.0.txt", "102.0.txt"] 2 =
      [(0, "101.0.txt"), (1, "101.0.txt"), (2, "101.0.txt")] ∧
    (1, "101.0.txt") ∈ SyncedPlotsUpdate ["100.0.txt", "101.0.txt", "102.0.txt"] 2 ∧
    (SyncedPlotsUpdate ["100.0.txt", "101.0.txt", "102.0.txt"] 2).Nodup ∧
    SyncedPlotsUpdate ["garbage.csv"] 2 = [] := by
  have h := refresh_tick_fanout ["100.0.txt", "101.0.txt", "102.0.txt"] 2
    (fun _ => none) (fun _ => none)
  have h2 := refresh_tick_fanout ["garbage.csv"] 2 (fun _ => none) (fun _ => none)
  refine ⟨?_, ?_, ?_, h2.2.1 (by decide)⟩
  · exact ((h.1 "101.0.txt" (by decide)).1).trans (by decide)
  · exact (h.1 "101.0.txt" (by decide)).2.2.1 1 (by decide)
  · exact (h.1 "101.0.txt" (by decide)).2.2.2

/-- Claim C1: on a duplicate-free directory with at least two names
matching the window-file convention, `get_newest_file` returns the
second-most-recent matching name in Python sort order and never the most
recent one; in particular, on exactly `100.0.txt`, `101.0.txt`,
`102.0.txt` it returns `101.0.txt`. -/
theorem get_newest_file_second_most_recent (dir : List String) (hnd : dir.Nodup)
    (h2 : 2 ≤ (dir.filter matchesGlob).length) :
    (∃ r m, get_newest_file dir = some r ∧
      r ∈ dir.filter matchesGlob ∧ m ∈ dir.filter matchesGlob ∧
      r ≠ m ∧ pyLe r m ∧
      (∀ x ∈ dir.filter matchesGlob, pyLe x m) ∧
      (∀ x ∈ dir.filter matchesGlob, x ≠ m → pyLe x r)) ∧
    get_newest_file ["100.0.txt", "101.0.txt", "102.0.txt"] = some "101.0.txt" := by
  have hperm : List.Perm (List.insertionSort pyLe (dir.filter matchesGlob))
      (dir.filter matchesGlob) :=
    List.perm_insertionSort pyLe _
  have hsort : List.Sorted pyLe (List.insertionSort pyLe (dir.filter matchesGlob)) :=
    List.sorted_insertionSort pyLe _
  set F := List.insertionSort pyLe (dir.filter matchesGlob) with hF
  have h2F : 2 ≤ F.length := by rw [hperm.length_eq]; exact h2
  have hnodupF : F.Nodup := hperm.nodup_iff.mpr (List.Nodup.filter _ hnd)
  have hidx2 : F.length - 2 < F.length := by omega
  have hidx1 : F.length - 1 < F.length := by omega
  refine ⟨⟨F.get ⟨F.length - 2, hidx2⟩, F.get ⟨F.length - 1, hidx1⟩,
    ?_, ?_, ?_, ?_, ?_, ?_, ?_⟩, by decide⟩
  · show (if 2 ≤ F.length then F.get? (F.length - 2) else none) = _
    rw [if_pos h2F, List.get?_eq_get hidx2]
  · exact hperm.mem_iff.mp (F.get_mem _ _)
  · exact hperm.mem_iff.mp (F.get_mem _ _)
  · intro hEq
    have := (hnodupF.get_inj_iff).mp hEq
    have : F.length - 2 = F.length - 1 := congrArg Fin.val this
    omega
  · exact hsort.rel_get_of_le (by simp [Fin.mk_le_mk]; omega)
  · intro x hx
    obtain ⟨i, hi⟩ := List.get_of_mem (hperm.mem_iff.mpr hx)
    rw [← hi]
    exact hsort.rel_get_of_le (by simp [Fin.le_def]; omega)
  · intro x hx hne
    obtain ⟨i, hi⟩ := List.get_of_mem (hperm.mem_iff.mpr hx)
    have hne' : i.val ≠ F.length - 1 := by
      intro hv
      exact hne (by rw [← hi]; congr 1; exact Fin.ext hv)
    have hle : i.val ≤ F.length - 2 := by have := i.isLt; omega
    rw [← hi]
    exact hsort.rel_get_of_le (by simp [Fin.le_def]; omega)

/-- Claim C1 witness: the theorem applied to the three-file directory of
the spec example. -/
theorem get_newest_file_second_most_recent_witness :
    (["100.0.txt", "101.0.txt", "102.0.txt"] : List String).Nodup ∧
    2 ≤ ((["100.0.txt", "101.0.txt", "102.0.txt"] : List String).filter matchesGlob).length ∧
    ((∃ r m, get_newest_file ["100.0.txt", "101.0.txt", "102.0.txt"] = some r ∧
      r ∈ (["100.0.txt", "101.0.txt", "102.0.txt"] : List String).filter matchesGlob ∧
      m ∈ (["100.0.txt", "101.0.txt", "102.0.txt"] : List String).filter matchesGlob ∧
      r ≠ m ∧ pyLe r m ∧
      (∀ x ∈ (["100.0.txt", "101.0.txt", "102.0.txt"] : List String).filter matchesGlob,
        pyLe x m) ∧
      (∀ x ∈ (["100.0.txt", "101.0.txt", "102.0.txt"] : List String).filter matchesGlob,
        x ≠ m → pyLe x r)) ∧
    get_newest_file ["100.0.txt", "101.0.txt", "102.0.txt"] = some "101.0.txt") :=
  ⟨by decide, by decide,
    get_newest_file_second_most_recent ["100.0.txt", "101.0.txt", "102.0.txt"]
      (by decide) (by decide)⟩

/-- Claim C9: with zero or one matching window files, `get_newest_file`
returns `none` rather than raising, and the refresh tick treats that as a
normal no-data tick, invoking no consumer. -/
theorem get_newest_file_no_data (dir : List String) (n : ℕ)
    (h : (dir.filter matchesGlob).length ≤ 1) :
    get_newest_file dir = none ∧ SyncedPlotsUpdate dir n = [] := by
  have hlen : (List.insertionSort pyLe (dir.filter matchesGlob)).length ≤ 1 := by
    rw [(List.perm_insertionSort pyLe _).length_eq]; exact h
  have h1 : get_newest_file dir = none := by
    show (if 2 ≤ (List.insertionSort pyLe (dir.filter matchesGlob)).length then _ else none) = _
    rw [if_neg]; omega
  refine ⟨h1, ?_⟩
  show syncedUpdate _ n = []
  unfold syncedUpdate
  rw [h1]

/-- Claim C9 witness: a directory with a single matching file. -/
theorem get_newest_file_no_data_witness :
    ((["100.0.txt", "notes.csv"] : List String).filter matchesGlob).length ≤ 1 ∧
    (get_newest_file ["100.0.txt", "notes.csv"] = none ∧
      SyncedPlotsUpdate ["100.0.txt", "notes.csv"] 3 = []) :=
  ⟨by decide, get_newest_file_no_data ["100.0.txt", "notes.csv"] 3 (by decide)⟩

/-- Claim C10: the selector only ever considers names matching `1*.txt`:
whatever it returns starts with `1` and ends with `.txt`, and a file
whose name does not start with `1` neither counts toward the two-file
minimum nor is ever returned, its presence leaving the result unchanged. -/
theorem get_newest_file_glob_filter (dir : List String) (f r : String) :
    (get_newest_file dir = some r →
      r ∈ dir ∧ matchesGlob r = true ∧ r.data.head? = some '1' ∧
      r.data.reverse.take 4 = ['t', 'x', 't', '.']) ∧
    (f.data.head? ≠ some '1' → get_newest_file (f :: dir) = get_newest_file dir) := by
  constructor
  · intro h
    have hmem : r ∈ dir.filter matchesGlob := by
      revert h
      show (if 2 ≤ (List.insertionSort pyLe (dir.filter matchesGlob)).length then
        (List.insertionSort pyLe (dir.filter matchesGlob)).get?
          ((List.insertionSort pyLe (dir.filter matchesGlob)).length - 2) else none) = some r → _
      split
      · intro h
        exact (List.perm_insertionSort pyLe _).mem_iff.mp (List.get?_mem h)
      · intro h; cases h
    have hmem' := List.mem_filter.mp hmem
    have hglob := hmem'.2
    have hparts := hglob
    simp only [matchesGlob, Bool.and_eq_true, decide_eq_true_eq] at hparts
    exact ⟨hmem'.1, hglob, hparts.1.1, hparts.1.2⟩
  · intro h
    have hf : matchesGlob f = false := by
      simp only [matchesGlob, Bool.and_eq_true, decide_eq_true_eq]
      simp [h]
    show (if 2 ≤ (List.insertionSort pyLe ((f :: dir).filter matchesGlob)).length then _ else none)
      = get_newest_file dir
    rw [List.filter_cons_of_neg (by simp [hf])]
    rfl

/-- Claim C10 witness: the theorem applied to a directory holding a
matching pair plus a recent file named outside the glob. -/
theorem get_newest_file_glob_filter_witness :
    (get_newest_file ["100.0.txt", "101.0.txt"] = some "100.0.txt" →
      "100.0.txt" ∈ (["100.0.txt", "101.0.txt"] : List String) ∧
      matchesGlob "100.0.txt" = true ∧
      ("100.0.txt" : String).data.head? = some '1' ∧
      ("100.0.txt" : String).data.reverse.take 4 = ['t', 'x', 't', '.']) ∧
    (("99.0.txt" : String).data.head? ≠ some '1' →
      get_newest_file ["99.0.txt", "100.0.txt", "101.0.txt"] =
        get_newest_file ["100.0.txt", "101.0.txt"]) :=
  get_newest_file_glob_filter ["100.0.txt", "101.0.txt"] "99.0.txt" "100.0.txt"

/-- Claim C4 (refuted; the spec itself flags this as a latent ordering
bug): the naming scheme does not make string sort order agree with
chronological order.  Window base name `19.5` is chronologically earlier
than `100.5`, yet `100.5.txt` sorts strictly before `19.5.txt` in the
Python string order the selector uses; consequently, on a directory
holding exactly these two files the selector returns the chronologically
most recent file `100.5.txt`, the very file that may still be mid-write. -/
theorem window_name_order_mismatch :
    chronoLt "19.5" "100.5" ∧
    pyLe "100.5.txt" "19.5.txt" ∧ "100.5.txt" ≠ "19.5.txt" ∧
    ¬ pyLe "19.5.txt" "100.5.txt" ∧
    get_newest_file ["19.5.txt", "100.5.txt"] = some "100.5.txt" := by
  refine ⟨⟨_, _, rfl, rfl, ?_⟩, by decide, by decide, by decide, by decide⟩
  norm_num [natOfDigits]
  decide

/-- A successful single-channel read certifies every row: the selected
column exists in each row and its field parses as a float. -/
theorem get_single_channel_data_ok_forall {c : ℕ} {rows : List (List String)}
    {l : List ℚ} (h : get_single_channel_data c rows = .ok l) :
    ∀ row ∈ rows, ∃ hlt : c < row.length, (parseFloat (row.get ⟨c, hlt⟩)).isSome := by
  induction rows generalizing l with
  | nil => intro row hrow; cases hrow
  | cons row rest ih =>
    intro r hr
    rcases hget : row[c]? with _ | field
    · simp [get_single_channel_data, hget] at h
    · rcases hpf : parseFloat field with _ | v
      · simp [get_single_channel_data, hget, hpf] at h
      · rcases hrec : get_single_channel_data c rest with e | vs
        · simp [get_single_channel_data, hget, hpf, hrec] at h
        · rcases hr with _ | hr
          · obtain ⟨hlt, hgetv⟩ := List.getElem?_eq_some.mp hget
            exact ⟨hlt, by rw [List.get_eq_getElem, hgetv, hpf]; rfl⟩
          · exact ih hrec r (by assumption)

/-- A `parseError` outcome of a single-channel read certifies a
non-numeric field at the selected column of some row. -/
theorem get_single_channel_data_parse_error {c : ℕ} {rows : List (List String)}
    (h : get_single_channel_data c rows = .error .parseError) :
    ∃ row ∈ rows, ∃ hlt : c < row.length, parseFloat (row.get ⟨c, hlt⟩) = none := by
  induction rows with
  | nil => cases h
  | cons row rest ih =>
    rcases hget : row[c]? with _ | field
    · simp [get_single_channel_data, hget] at h
    · rcases hpf : parseFloat field with _ | v
      · obtain ⟨hlt, hgetv⟩ := List.getElem?_eq_some.mp hget
        exact ⟨row, List.mem_cons_self _ _, hlt,
          by rw [List.get_eq_getElem, hgetv]; exact hpf⟩
      · rcases hrec : get_single_channel_data c rest with e | vs
        · simp only [get_single_channel_data, List.get?_eq_getElem?, hget, hpf, hrec,
            Except.error.injEq] at h
          obtain ⟨r, hr, hrest⟩ := ih (h ▸ hrec)
          exact ⟨r, List.mem_cons_of_mem _ hr, hrest⟩
        · simp [get_single_channel_data, hget, hpf, hrec] at h

/-- A `malformedRow` outcome of a single-channel read certifies a row
with too few fields for the selected column. -/
theorem get_single_channel_data_malformed {c : ℕ} {rows : List (List String)}
    (h : get_single_channel_data c rows = .error .malformedRow) :
    ∃ row ∈ rows, row.length ≤ c := by
  induction rows with
  | nil => cases h
  | cons row rest ih =>
    rcases hget : row[c]? with _ | field
    · exact ⟨row, List.mem_cons_self _ _, List.getElem?_eq_none_iff.mp hget⟩
    · rcases hpf : parseFloat field with _ | v
      · simp [get_single_channel_data, hget, hpf] at h
      · rcases hrec : get_single_channel_data c rest with e | vs
        · simp only [get_single_channel_data, List.get?_eq_getElem?, hget, hpf, hrec,
            Except.error.injEq] at h
          obtain ⟨r, hr, hrest⟩ := ih (h ▸ hrec)
          exact ⟨r, List.mem_cons_of_mem _ hr, hrest⟩
        · simp [get_single_channel_data, hget, hpf, hrec] at h

/-- A successful single-channel read has one value per row. -/
theorem get_single_channel_data_ok_length {c : ℕ} {rows : List (List String)}
    {l : List ℚ} (h : get_single_channel_data c rows = .ok l) :
    l.length = rows.length := by
  induction rows generalizing l with
  | nil => cases h; rfl
  | cons row rest ih =>
    rcases hget : row[c]? with _ | field
    · simp [get_single_channel_data, hget] at h
    · rcases hpf : parseFloat field with _ | v
      · simp [get_single_channel_data, hget, hpf] at h
      · rcases hrec : get_single_channel_data c rest with e | vs
        · simp [get_single_channel_data, hget, hpf, hrec] at h
        · simp only [get_single_channel_data, List.get?_eq_getElem?, hget, hpf, hrec,
            Except.ok.injEq] at h
          rw [← h]
          simpa using ih hrec

/-- A successful multi-channel decode certifies a successful read of
every requested channel. -/
theorem decodeChannels_ok_forall {cs : List ℕ} {rows : List (List String)}
    {res : List (List ℚ)} (h : decodeChannels cs rows = .ok res) :
    ∀ c ∈ cs, ∃ l, get_single_channel_data c rows = .ok l := by
  induction cs generalizing res with
  | nil => intro c hc; cases hc
  | cons c0 cs ih =>
    intro c hc
    rcases hg : get_single_channel_data c0 rows with e | series
    · simp [decodeChannels, hg] at h
    · rcases hrec : decodeChannels cs rows with e | rest
      · simp [decodeChannels, hg, hrec] at h
      · rcases hc with _ | hc
        · exact ⟨series, hg⟩
        · exact ih hrec c (by assumption)

/-- Every series of a successful multi-channel decode has one value per
row: no row is silently skipped. -/
theorem decodeChannels_ok_length {cs : List ℕ} {rows : List (List String)}
    {res : List (List ℚ)} (h : decodeChannels cs rows = .ok res) :
    ∀ s ∈ res, s.length = rows.length := by
  induction cs generalizing res with
  | nil => cases h; intro s hs; cases hs
  | cons c0 cs ih =>
    rcases hg : get_single_channel_data c0 rows with e | series
    · simp [decodeChannels, hg] at h
    · rcases hrec : decodeChannels cs rows with e | rest
      · simp [decodeChannels, hg, hrec] at h
      · simp only [decodeChannels, hg, hrec, Except.ok.injEq] at h
        rw [← h]
        intro s hs
        rcases hs with _ | hs
        · exact get_single_channel_data_ok_length hg
        · exact ih hrec s (by assumption)

/-- When some requested channel cannot be read and every failing channel
read fails with the same error, the multi-channel decode fails with that
error. -/
theorem decodeChannels_error_of_all {cs : List ℕ} {rows : List (List String)}
    (e : DecodeError)
    (hex : ∃ c ∈ cs, ∀ l, get_single_channel_data c rows ≠ .ok l)
    (hall : ∀ c ∈ cs, ∀ e2, get_single_channel_data c rows = .error e2 → e2 = e) :
    decodeChannels cs rows = .error e := by
  induction cs with
  | nil => obtain ⟨c, hc, _⟩ := hex; cases hc
  | cons c0 cs ih =>
    rcases hg : get_single_channel_data c0 rows with e2 | series
    · have he2 : e2 = e := hall c0 (List.mem_cons_self _ _) e2 hg
      simp [decodeChannels, hg, he2]
    · rcases hrec : decodeChannels cs rows with e2 | rest
      · have he2 : e2 = e := by
          obtain ⟨c, hc, hnok⟩ := hex
          have hctail : ∃ c ∈ cs, ∀ l, get_single_channel_data c rows ≠ .ok l := by
            rcases hc with _ | hc
            · exact absurd hg (hnok series)
            · exact ⟨c, by assumption, hnok⟩
          have := ih hctail (fun c hc => hall c (List.mem_cons_of_mem _ hc))
          rw [this] at hrec
          cases hrec
          rfl
        simp [decodeChannels, hg, hrec, he2]
      · exfalso
        obtain ⟨c, hc, hnok⟩ := hex
        rcases hc with _ | hc
        · exact hnok series hg
        · obtain ⟨l, hl⟩ := decodeChannels_ok_forall hrec c (by assumption)
          exact hnok l hl

/-- Claim C8 counterexample: on a two-channel file whose first row has a
non-numeric first field and whose second row has only one field, the
decode aborts with `parseError`, not with the `MalformedRow` condition
the claim promises for every file containing a short row — the error
reported is the first one encountered in channel-major reading order. -/
theorem decode_error_priority_counterexample :
    (∃ row ∈ ([["x", "1"], ["1"]] : List (List String)), row.length < 2) ∧
    decode 2 [["x", "1"], ["1"]] = .error DecodeError.parseError ∧
    decode 2 [["x", "1"], ["1"]] ≠ .error DecodeError.malformedRow := by
  refine ⟨⟨["1"], by decide, by decide⟩, rfl, ?_⟩
  intro h
  rw [show decode 2 [["x", "1"], ["1"]] = .error DecodeError.parseError from rfl] at h
  exact DecodeError.noConfusion (Except.error.inj h)

/-- Claim C8 (amended): decoding a file aborts with an error — returning
no data, skipping no rows — whenever some row has fewer fields than
`channel_count`; the error is `MalformedRow` when every field in a read
column parses as a float, while a file whose rows all have enough fields
but with a non-numeric field in a read column aborts with `ParseError`;
when both defects are present the first one encountered in channel-major
reading order wins, and a successful decode returns one value per row
for every requested channel. -/
theorem decode_error_conditions (cc : ℕ) (rows : List (List String)) :
    ((∃ row ∈ rows, row.length < cc) → ∃ e, decode cc rows = .error e) ∧
    ((∃ row ∈ rows, row.length < cc) →
      (∀ row ∈ rows, ∀ field ∈ row.take cc, (parseFloat field).isSome) →
      decode cc rows = .error DecodeError.malformedRow) ∧
    ((∀ row ∈ rows, cc ≤ row.length) →
      (∃ row ∈ rows, ∃ field ∈ row.take cc, parseFloat field = none) →
      decode cc rows = .error DecodeError.parseError) ∧
    (∀ e, decode cc rows = .error e → ∀ series, decode cc rows ≠ .ok series) ∧
    (∀ series, decode cc rows = .ok series →
      series.length = cc ∧ ∀ s ∈ series, s.length = rows.length) := by
  have hshort_nok : ∀ row ∈ rows, row.length < cc →
      ∀ l, get_single_channel_data row.length rows ≠ .ok l := by
    intro row hrow hlen l hok
    obtain ⟨hlt, _⟩ := get_single_channel_data_ok_forall hok row hrow
    omega
  refine ⟨?_, ?_, ?_, ?_, ?_⟩
  · intro ⟨row, hrow, hlen⟩
    rcases hd : decode cc rows with e | res
    · exact ⟨e, rfl⟩
    · exfalso
      obtain ⟨l, hl⟩ := decodeChannels_ok_forall hd row.length
        (List.mem_range.mpr hlen)
      exact hshort_nok row hrow hlen l hl
  · intro ⟨row, hrow, hlen⟩ hnum
    refine decodeChannels_error_of_all _ ⟨row.length, List.mem_range.mpr hlen,
      hshort_nok row hrow hlen⟩ ?_
    intro c hc e2 he2
    cases e2 with
    | malformedRow => rfl
    | parseError =>
      exfalso
      obtain ⟨r, hr, hlt, hnone⟩ := get_single_channel_data_parse_error he2
      have hcc : c < cc := List.mem_range.mp hc
      have hmem : r.get ⟨c, hlt⟩ ∈ r.take cc := by
        have hlt' : c < (r.take cc).length := by
          rw [List.length_take]
          omega
        have : (r.take cc).get ⟨c, hlt'⟩ = r.get ⟨c, hlt⟩ := by
          simp [List.get_eq_getElem]
        rw [← this]
        exact List.get_mem _ _ _
      have := hnum r hr _ hmem
      rw [hnone] at this
      cases this
  · intro hlong ⟨row, hrow, field, hfield, hnone⟩
    obtain ⟨⟨i, hi⟩, hgi⟩ := List.get_of_mem hfield
    have hi' : i < cc ∧ i < row.length := by
      rw [List.length_take] at hi
      omega
    have hgi' : row.get ⟨i, hi'.2⟩ = field := by
      rw [← hgi]
      simp [List.get_eq_getElem]
    refine decodeChannels_error_of_all _ ⟨i, List.mem_range.mpr hi'.1, ?_⟩ ?_
    · intro l hok
      obtain ⟨hlt, hsome⟩ := get_single_channel_data_ok_forall hok row hrow
      rw [show row.get ⟨i, hlt⟩ = field from by rw [← hgi']] at hsome
      rw [hnone] at hsome
      cases hsome
    · intro c hc e2 he2
      cases e2 with
      | parseError => rfl
      | malformedRow =>
        exfalso
        obtain ⟨r, hr, hlen⟩ := get_single_channel_data_malformed he2
        have := hlong r hr
        have hcc : c < cc := List.mem_range.mp hc
        omega
  · intro e he series hok
    rw [he] at hok
    cases hok
  · intro series hok
    refine ⟨?_, decodeChannels_ok_length hok⟩
    have : ∀ (cs : List ℕ) (res : List (List ℚ)),
        decodeChannels cs rows = .ok res → res.length = cs.length := by
      intro cs
      induction cs with
      | nil => intro res h; cases h; rfl
      | cons c0 cs ih =>
        intro res h
        rcases hg : get_single_channel_data c0 rows with e | s
        · simp [decodeChannels, hg] at h
        · rcases hrec : decodeChannels cs rows with e | rest
          · simp [decodeChannels, hg, hrec] at h
          · simp only [decodeChannels, hg, hrec, Except.ok.injEq] at h
            rw [← h]
            simpa using ih rest hrec
    simpa using this (List.range cc) series hok

/-- Claim C8 witness: a short second row with numeric fields — exponent
notation included — aborts the decode with `MalformedRow`; full rows
with one non-numeric field abort it with `ParseError`; a well-formed
2-by-2 file decodes to one series per channel with one value per row;
and a file whose field is written in exponent notation, as `str` renders
small voltages, decodes successfully. -/
theorem decode_error_conditions_witness :
    decode 2 [["1"], ["2", "3"]] = .error DecodeError.malformedRow ∧
    decode 2 [["1e-05", "2"], ["3"]] = .error DecodeError.malformedRow ∧
    decode 2 [["1", "a"], ["2", "3"]] = .error DecodeError.parseError ∧
    (decode 2 [["1", "4"], ["2", "3"]] = .ok [[1, 2], [4, 3]] →
      [[1, 4], [2, 3]].length = 2 ∧
      ∀ s ∈ ([[(1 : ℚ), 2], [4, 3]] : List (List ℚ)), s.length = 2) ∧
    (∃ series, decode 2 [["1e-05", "2"]] = .ok series ∧
      series.length = 2 ∧ ∀ s ∈ series, s.length = 1) := by
  refine ⟨?_, ?_, ?_, ?_, ?_⟩
  · exact (decode_error_conditions 2 [["1"], ["2", "3"]]).2.1
      ⟨["1"], by decide, by decide⟩ (by decide)
  · exact (decode_error_conditions 2 [["1e-05", "2"], ["3"]]).2.1
      ⟨["3"], by decide, by decide⟩ (by decide)
  · exact (decode_error_conditions 2 [["1", "a"], ["2", "3"]]).2.2.1
      (by decide) ⟨["1", "a"], by decide, "a", by decide, rfl⟩
  · intro h
    have := (decode_error_conditions 2 [["1", "4"], ["2", "3"]]).2.2.2.2 _ h
    exact ⟨by decide, fun s hs => by simpa using this.2 s hs⟩
  · refine ⟨_, rfl, ?_⟩
    have := (decode_error_conditions 2 [["1e-05", "2"]]).2.2.2.2 _ rfl
    exact ⟨this.1, fun s hs => by simpa using this.2 s hs⟩

/-- Membership in a list extended by one element. -/
theorem mem_append_singleton {α : Type} {a b : α} {l : List α} :
    a ∈ l ++ [b] ↔ a ∈ l ∨ a = b := by
  simp

/-- Membership in a list extended by a different element. -/
theorem mem_append_singleton_iff_of_ne {α : Type} {a b : α} {l : List α}
    (hne : a ≠ b) : a ∈ l ++ [b] ↔ a ∈ l := by
  rw [mem_append_singleton]
  simp [hne]

/-- Non-membership survives appending a different element. -/
theorem not_mem_append_singleton {α : Type} {a b : α} {l : List α}
    (h1 : a ∉ l) (h2 : a ≠ b) : a ∉ l ++ [b] := by
  rw [mem_append_singleton]
  rintro (h | h)
  · exact h1 h
  · exact h2 h

/-- Index of a freshly appended element not previously in the list. -/
theorem indexOf_append_sing_self {α : Type} [DecidableEq α] {l : List α} {b : α}
    (h : b ∉ l) : (l ++ [b]).indexOf b = l.length := by
  rw [List.indexOf_append_of_not_mem h, List.indexOf_cons_self, Nat.add_zero]

/-- An established precedence between two logged events survives logging
any event other than the later one. -/
theorem orderInv_append {α : Type} [DecidableEq α] {l : List α} {a e x : α}
    (hxe : x ≠ e)
    (h : e ∈ l → a ∈ l ∧ l.indexOf a < l.indexOf e) :
    e ∈ l ++ [x] → a ∈ l ++ [x] ∧ (l ++ [x]).indexOf a < (l ++ [x]).indexOf e := by
  intro he
  have he' : e ∈ l := by
    rcases mem_append_singleton.mp he with h' | h'
    · exact h'
    · exact absurd h'.symm hxe
  obtain ⟨ha, hidx⟩ := h he'
  refine ⟨List.mem_append_left _ ha, ?_⟩
  rw [List.indexOf_append_of_mem ha, List.indexOf_append_of_mem he']
  exact hidx

/-- Logging a fresh event places it after every event already logged. -/
theorem orderInv_append_new {α : Type} [DecidableEq α] {l : List α} {a e : α}
    (hnew : e ∉ l) (ha : a ∈ l) :
    a ∈ l ++ [e] ∧ (l ++ [e]).indexOf a < (l ++ [e]).indexOf e := by
  refine ⟨List.mem_append_left _ ha, ?_⟩
  rw [List.indexOf_append_of_mem ha, indexOf_append_sing_self hnew]
  exact List.indexOf_lt_length.mpr ha

/-- The writer-thread invariant only watches the three writer events, so
it survives logging any other event. -/
theorem wstate_append {B : List SampleRow} {w : List WriterInstr}
    {cl : Option (List SampleRow)} {mc : Bool} {fw : Option (List SampleRow)}
    {log : List RotEvent} (h : WState B w cl mc fw log) (x : RotEvent)
    (h1 : x ≠ RotEvent.copied) (h2 : x ≠ RotEvent.signaled) (h3 : x ≠ RotEvent.wrote) :
    WState B w cl mc fw (log ++ [x]) := by
  rcases h with ⟨ha, hb, hc, hd, he, hf, hg⟩ | ⟨ha, hb, hc, hd, he, hf, hg⟩ |
    ⟨ha, hb, hc, hd, he, hf, hg⟩ | ⟨ha, hb, hc, hd, he, hf, hg⟩
  · exact Or.inl ⟨ha, hb, hc, hd, not_mem_append_singleton he h1.symm,
      not_mem_append_singleton hf h2.symm, not_mem_append_singleton hg h3.symm⟩
  · exact Or.inr (Or.inl ⟨ha, hb, hc, hd, List.mem_append_left _ he,
      not_mem_append_singleton hf h2.symm, not_mem_append_singleton hg h3.symm⟩)
  · exact Or.inr (Or.inr (Or.inl ⟨ha, hb, hc, hd, List.mem_append_left _ he,
      List.mem_append_left _ hf, not_mem_append_singleton hg h3.symm⟩))
  · exact Or.inr (Or.inr (Or.inr ⟨ha, hb, hc, hd, List.mem_append_left _ he,
      List.mem_append_left _ hf, List.mem_append_left _ hg⟩))

/-- Shape of the remaining acquisition-loop program after `k` executed
instructions: nothing left, the full program, the program from the
rebind on, or a tail of appends. -/
theorem mainRotProg_drop_shape (apps : List SampleRow) (k : ℕ) :
    (mainRotProg apps).drop k = [] ∨
    (k = 0 ∧ (mainRotProg apps).drop k =
      MainInstr.mwait :: MainInstr.mclear :: apps.map MainInstr.mappend) ∨
    (k = 1 ∧ (mainRotProg apps).drop k =
      MainInstr.mclear :: apps.map MainInstr.mappend) ∨
    (2 ≤ k ∧ ∃ r rest, (mainRotProg apps).drop k = MainInstr.mappend r :: rest ∧
      (mainRotProg apps).drop (k + 1) = rest) := by
  match k with
  | 0 => exact Or.inr (Or.inl ⟨rfl, rfl⟩)
  | 1 => exact Or.inr (Or.inr (Or.inl ⟨rfl, rfl⟩))
  | (m + 2) =>
    have hdrop : (mainRotProg apps).drop (m + 2) = (apps.map MainInstr.mappend).drop m := by
      simp [mainRotProg]
    rcases hd : (apps.map MainInstr.mappend).drop m with _ | ⟨i, rest⟩
    · exact Or.inl (by rw [hdrop, hd])
    · have hi : i ∈ apps.map MainInstr.mappend :=
        List.mem_of_mem_drop (by rw [hd]; exact List.mem_cons_self _ _)
      obtain ⟨r, _, hr⟩ := List.mem_map.mp hi
      refine Or.inr (Or.inr (Or.inr ⟨by omega, r, rest, ?_, ?_⟩))
      · rw [hdrop, hd, hr]
      · have hdrop3 : (mainRotProg apps).drop (m + 2 + 1) =
            (apps.map MainInstr.mappend).drop (m + 1) := by
          simp [mainRotProg]
        rw [hdrop3, ← List.drop_drop, hd]
        rfl

/-- The invariant holds at rotation time. -/
theorem rotInv_init (B apps : List SampleRow) : RotInv B apps (initRot B apps) := by
  refine ⟨rfl, by simp [initRot], rfl,
    ⟨0, rfl, fun _ => rfl, fun h => absurd h (by decide), by simp [initRot]⟩,
    Or.inl ⟨rfl, rfl, rfl, rfl, by simp [initRot], by simp [initRot], by simp [initRot]⟩,
    by simp [initRot], by simp [initRot], by simp [initRot]⟩

/-- The invariant is preserved by every step of either thread. -/
theorem rotInv_step (B apps : List SampleRow) (c : RotConfig) (tid : Bool)
    (h : RotInv B apps c) : RotInv B apps (stepRot c tid) := by
  obtain ⟨hd, hf, hh, ⟨k, hm, hmc0, hbuf, hclr⟩, hw, hcs, hsw, hsc⟩ := h
  cases tid with
  | true =>
    rcases hw with ⟨hwp, hcl, hmc, hfw, hcn, hsn, hwn⟩ | ⟨hwp, hcl, hmc, hfw, hcm, hsn, hwn⟩ |
      ⟨hwp, hcl, hmc, hfw, hcm, hsm, hwn⟩ | ⟨hwp, hcl, hmc, hfw, hcm, hsm, hwm⟩
    · -- clone = deepcopy(data)
      have hstep : stepRot c true =
          { c with clone := some (c.heap c.dataRef),
                   wprog := [WriterInstr.wsignal, WriterInstr.wwrite],
                   log := c.log ++ [RotEvent.copied] } := by
        simp [stepRot, stepWriter, hwp]
      rw [hstep]
      refine ⟨hd, hf, hh,
        ⟨k, hm, hmc0, hbuf,
          by rw [mem_append_singleton_iff_of_ne (by decide)]; exact hclr⟩,
        Or.inr (Or.inl ⟨rfl, by rw [hd, hh], hmc, hfw, by simp,
          not_mem_append_singleton hsn (by decide),
          not_mem_append_singleton hwn (by decide)⟩),
        orderInv_append (by decide) hcs,
        orderInv_append (by decide) hsw,
        orderInv_append (by decide) hsc⟩
    · -- made_copy.set()
      have hstep : stepRot c true =
          { c with madeCopy := true, wprog := [WriterInstr.wwrite],
                   log := c.log ++ [RotEvent.signaled] } := by
        simp [stepRot, stepWriter, hwp]
      rw [hstep]
      refine ⟨hd, hf, hh,
        ⟨k, hm, fun hx => Bool.noConfusion hx, hbuf,
          by rw [mem_append_singleton_iff_of_ne (by decide)]; exact hclr⟩,
        Or.inr (Or.inr (Or.inl ⟨rfl, hcl, rfl, hfw, List.mem_append_left _ hcm,
          by simp, not_mem_append_singleton hwn (by decide)⟩)),
        fun _ => orderInv_append_new hsn hcm,
        orderInv_append (by decide) hsw,
        orderInv_append (by decide) hsc⟩
    · -- csv_writer.writerows(clone)
      have hstep : stepRot c true =
          { c with fileWritten := c.clone, wprog := [],
                   log := c.log ++ [RotEvent.wrote] } := by
        simp [stepRot, stepWriter, hwp]
      rw [hstep]
      refine ⟨hd, hf, hh,
        ⟨k, hm, hmc0, hbuf,
          by rw [mem_append_singleton_iff_of_ne (by decide)]; exact hclr⟩,
        Or.inr (Or.inr (Or.inr ⟨rfl, hcl, hmc, hcl, List.mem_append_left _ hcm,
          List.mem_append_left _ hsm, by simp⟩)),
        orderInv_append (by decide) hcs,
        fun _ => orderInv_append_new hwn hsm,
        orderInv_append (by decide) hsc⟩
    · -- writer thread finished: no step
      have hstep : stepRot c true = c := by
        simp [stepRot, stepWriter, hwp]
      rw [hstep]
      exact ⟨hd, hf, hh, ⟨k, hm, hmc0, hbuf, hclr⟩,
        Or.inr (Or.inr (Or.inr ⟨hwp, hcl, hmc, hfw, hcm, hsm, hwm⟩)), hcs, hsw, hsc⟩
  | false =>
    rcases mainRotProg_drop_shape apps k with hsh | ⟨hk, hsh⟩ | ⟨hk, hsh⟩ |
      ⟨hk2, r, rest, hsh, hsh'⟩
    · -- acquisition loop finished: no step
      have hmp : c.mprog = [] := hm.trans hsh
      have hstep : stepRot c false = c := by
        simp [stepRot, stepMain, hmp]
      rw [hstep]
      exact ⟨hd, hf, hh, ⟨k, hm, hmc0, hbuf, hclr⟩, hw, hcs, hsw, hsc⟩
    · -- made_copy.wait()
      subst hk
      have hmp : c.mprog =
          MainInstr.mwait :: MainInstr.mclear :: apps.map MainInstr.mappend :=
        hm.trans hsh
      cases hv : c.madeCopy with
      | false =>
        have hstep : stepRot c false = c := by
          simp [stepRot, stepMain, hmp, hv]
        rw [hstep]
        exact ⟨hd, hf, hh, ⟨0, hm, hmc0, hbuf, hclr⟩, hw, hcs, hsw, hsc⟩
      | true =>
        have hstep : stepRot c false =
            { c with mprog := MainInstr.mclear :: apps.map MainInstr.mappend,
                     log := c.log ++ [RotEvent.waited] } := by
          simp [stepRot, stepMain, hmp, hv]
        rw [hstep]
        refine ⟨hd, hf, hh,
          ⟨1, rfl, fun hx => Bool.noConfusion (hv ▸ hx),
            fun hx => absurd hx (by decide),
            by rw [mem_append_singleton_iff_of_ne (by decide), hclr]; decide⟩,
          wstate_append hw _ (by decide) (by decide) (by decide),
          orderInv_append (by decide) hcs,
          orderInv_append (by decide) hsw,
          orderInv_append (by decide) hsc⟩
    · -- file_buffer = []
      subst hk
      have hmp : c.mprog = MainInstr.mclear :: apps.map MainInstr.mappend :=
        hm.trans hsh
      have hmct : c.madeCopy = true := by
        cases hv : c.madeCopy with
        | false => exact absurd (hmc0 hv) (by decide)
        | true => rfl
      have hsig : RotEvent.signaled ∈ c.log := by
        rcases hw with ⟨_, _, hmc, _⟩ | ⟨_, _, hmc, _⟩ |
          ⟨_, _, _, _, _, hsm, _⟩ | ⟨_, _, _, _, _, hsm, _⟩
        · exact Bool.noConfusion (hmct ▸ hmc)
        · exact Bool.noConfusion (hmct ▸ hmc)
        · exact hsm
        · exact hsm
      have hclrn : RotEvent.cleared ∉ c.log := by
        intro hx
        have := hclr.mp hx
        omega
      have hstep : stepRot c false =
          { c with bufRef := c.fresh, heap := Function.update c.heap c.fresh [],
                   fresh := c.fresh + 1, mprog := apps.map MainInstr.mappend,
                   log := c.log ++ [RotEvent.cleared] } := by
        simp [stepRot, stepMain, hmp]
      rw [hstep]
      refine ⟨hd, by show 1 ≤ c.fresh + 1; omega, ?_,
        ⟨2, by simp [mainRotProg], fun hx => Bool.noConfusion (hmct ▸ hx),
          fun _ => hf, by simp⟩,
        wstate_append hw _ (by decide) (by decide) (by decide),
        orderInv_append (by decide) hcs,
        orderInv_append (by decide) hsw,
        fun _ => orderInv_append_new hclrn hsig⟩
      show Function.update c.heap c.fresh [] 0 = B
      rw [Function.update_noteq (show (0 : ℕ) ≠ c.fresh by omega)]
      exact hh
    · -- file_buffer.append(row)
      have hmp : c.mprog = MainInstr.mappend r :: rest := hm.trans hsh
      have hbr : 1 ≤ c.bufRef := hbuf hk2
      have hstep : stepRot c false =
          { c with heap := Function.update c.heap c.bufRef (c.heap c.bufRef ++ [r]),
                   mprog := rest, log := c.log ++ [RotEvent.appended] } := by
        simp [stepRot, stepMain, hmp]
      rw [hstep]
      refine ⟨hd, hf, ?_,
        ⟨k + 1, hsh'.symm, fun hx => by have := hmc0 hx; omega,
          fun _ => hbr,
          by rw [mem_append_singleton_iff_of_ne (by decide), hclr]; omega⟩,
        wstate_append hw _ (by decide) (by decide) (by decide),
        orderInv_append (by decide) hcs,
        orderInv_append (by decide) hsw,
        orderInv_append (by decide) hsc⟩
      show Function.update c.heap c.bufRef (c.heap c.bufRef ++ [r]) 0 = B
      rw [Function.update_noteq (show (0 : ℕ) ≠ c.bufRef by omega)]
      exact hh

/-- The invariant is preserved by every schedule. -/
theorem rotInv_run (B apps : List SampleRow) (sched : List Bool) (c : RotConfig)
    (h : RotInv B apps c) : RotInv B apps (runRot sched c) := by
  induction sched generalizing c with
  | nil => exact h
  | cons t ts ih => exact ih _ (rotInv_step B apps c t h)

/-- Claim C2: under every schedule of the two threads and every sequence
of post-rotation appends, a completed handoff writes to the window file
exactly the rows the buffer held at rotation time — the deep copy is an
isolated value, so the rebinding and the later mutations of
`file_buffer` by the acquisition loop never change what the persistence
task writes. -/
theorem rotation_snapshot_isolated (B apps : List SampleRow) (sched : List Bool)
    (h : completedRot (runRot sched (initRot B apps))) :
    (runRot sched (initRot B apps)).fileWritten = some B := by
  have hinv := rotInv_run B apps sched _ (rotInv_init B apps)
  rcases hinv.wstate with ⟨hwp, _⟩ | ⟨hwp, _⟩ | ⟨hwp, _⟩ | ⟨_, _, _, hfw, _⟩
  · rw [h.1] at hwp; cases hwp
  · rw [h.1] at hwp; cases hwp
  · rw [h.1] at hwp; cases hwp
  · exact hfw

/-- Claim C2 witness: a concrete complete schedule — copy, signal, wait,
rebind, append one row of the next window, write — persists exactly the
two rotation-time rows. -/
theorem rotation_snapshot_isolated_witness :
    completedRot (runRot [true, true, false, false, false, true]
      (initRot [[1], [2]] [[3]])) ∧
    (runRot [true, true, false, false, false, true]
      (initRot [[1], [2]] [[3]])).fileWritten = some [[1], [2]] :=
  ⟨by decide, rotation_snapshot_isolated [[1], [2]] [[3]]
    [true, true, false, false, false, true] (by decide)⟩

/-- Running only the append tail of the acquisition loop touches neither
the writer state nor the log order: it executes every append and logs
only `appended` events. -/
theorem runRot_appends (l : List SampleRow) :
    ∀ c : RotConfig, c.mprog = l.map MainInstr.mappend →
      (runRot (l.map fun _ => false) c).wprog = c.wprog ∧
      (runRot (l.map fun _ => false) c).mprog = [] ∧
      (runRot (l.map fun _ => false) c).log =
        c.log ++ l.map (fun _ => RotEvent.appended) ∧
      (runRot (l.map fun _ => false) c).clone = c.clone ∧
      (runRot (l.map fun _ => false) c).madeCopy = c.madeCopy ∧
      (runRot (l.map fun _ => false) c).fileWritten = c.fileWritten := by
  induction l with
  | nil =>
    intro c h
    exact ⟨rfl, by simpa using h, by simp [runRot], rfl, rfl, rfl⟩
  | cons r l ih =>
    intro c h
    have hmp : c.mprog = MainInstr.mappend r :: l.map MainInstr.mappend := by
      simpa using h
    have hstep : runRot ((r :: l).map fun _ => false) c =
        runRot (l.map fun _ => false) (stepRot c false) := rfl
    have hsm : stepRot c false =
        { c with heap := Function.update c.heap c.bufRef (c.heap c.bufRef ++ [r]),
                 mprog := l.map MainInstr.mappend,
                 log := c.log ++ [RotEvent.appended] } := by
      simp [stepRot, stepMain, hmp]
    obtain ⟨h1, h2, h3, h4, h5, h6⟩ := ih (stepRot c false) (by rw [hsm])
    refine ⟨?_, by rw [hstep]; exact h2, ?_, ?_, ?_, ?_⟩
    · rw [hstep, h1, hsm]
    · rw [hstep, h3, hsm]
      simp
    · rw [hstep, h4, hsm]
    · rw [hstep, h5, hsm]
    · rw [hstep, h6, hsm]

/-- The final write step on a writer thread that has only the write
left. -/
theorem stepWriter_wwrite (c : RotConfig) (h : c.wprog = [WriterInstr.wwrite]) :
    (stepRot c true).wprog = [] ∧ (stepRot c true).mprog = c.mprog ∧
    (stepRot c true).log = c.log ++ [RotEvent.wrote] ∧
    (stepRot c true).fileWritten = c.clone := by
  have hs : stepRot c true = stepWriter c := rfl
  rw [hs]
  unfold stepWriter
  rw [h]
  exact ⟨rfl, rfl, rfl, rfl⟩

/-- Splitting a schedule splits the run. -/
theorem runRot_append (s1 s2 : List Bool) (c : RotConfig) :
    runRot (s1 ++ s2) c = runRot s2 (runRot s1 c) := by
  simp [runRot, List.foldl_append]

/-- Claim C3: in every completed run of the handoff the one-shot
`made_copy` signal is raised strictly after the deep copy and strictly
before the file write, and the acquisition loop rebinds its buffer only
after that signal — never gated on the write: for any rotation buffer
and any append tail there is a complete schedule in which the loop has
already cleared its buffer and appended all rows of the next window
before the file write happens. -/
theorem rotation_signal_order (B apps : List SampleRow) :
    (∀ sched, completedRot (runRot sched (initRot B apps)) →
      RotEvent.copied ∈ (runRot sched (initRot B apps)).log ∧
      RotEvent.signaled ∈ (runRot sched (initRot B apps)).log ∧
      RotEvent.wrote ∈ (runRot sched (initRot B apps)).log ∧
      RotEvent.cleared ∈ (runRot sched (initRot B apps)).log ∧
      (runRot sched (initRot B apps)).log.indexOf RotEvent.copied <
        (runRot sched (initRot B apps)).log.indexOf RotEvent.signaled ∧
      (runRot sched (initRot B apps)).log.indexOf RotEvent.signaled <
        (runRot sched (initRot B apps)).log.indexOf RotEvent.wrote ∧
      (runRot sched (initRot B apps)).log.indexOf RotEvent.signaled <
        (runRot sched (initRot B apps)).log.indexOf RotEvent.cleared) ∧
    (∃ sched, completedRot (runRot sched (initRot B apps)) ∧
      (runRot sched (initRot B apps)).log.indexOf RotEvent.cleared <
        (runRot sched (initRot B apps)).log.indexOf RotEvent.wrote) := by
  constructor
  · intro sched hdone
    have hinv := rotInv_run B apps sched _ (rotInv_init B apps)
    have hsh4 : RotEvent.copied ∈ (runRot sched (initRot B apps)).log ∧
        RotEvent.signaled ∈ (runRot sched (initRot B apps)).log ∧
        RotEvent.wrote ∈ (runRot sched (initRot B apps)).log := by
      rcases hinv.wstate with ⟨hwp, _⟩ | ⟨hwp, _⟩ | ⟨hwp, _⟩ |
        ⟨_, _, _, _, hcm, hsm, hwm⟩
      · rw [hdone.1] at hwp; cases hwp
      · rw [hdone.1] at hwp; cases hwp
      · rw [hdone.1] at hwp; cases hwp
      · exact ⟨hcm, hsm, hwm⟩
    have hclm : RotEvent.cleared ∈ (runRot sched (initRot B apps)).log := by
      obtain ⟨k, hm, _, _, hclr⟩ := hinv.mstate
      refine hclr.mpr ?_
      rw [hdone.2] at hm
      have hlen := List.drop_eq_nil_iff.mp hm.symm
      have : (mainRotProg apps).length = 2 + apps.length := by
        simp [mainRotProg]
        omega
      omega
    refine ⟨hsh4.1, hsh4.2.1, hsh4.2.2, hclm,
      (hinv.ordCS hsh4.2.1).2, (hinv.ordSW hsh4.2.2).2, (hinv.ordSC hclm).2⟩
  · refine ⟨[true, true, false, false] ++ (apps.map fun _ => false) ++ [true], ?_, ?_⟩
    all_goals {
      have hc4m : (runRot [true, true, false, false] (initRot B apps)).mprog =
          apps.map MainInstr.mappend := rfl
      have hc4w : (runRot [true, true, false, false] (initRot B apps)).wprog =
          [WriterInstr.wwrite] := rfl
      have hc4log : (runRot [true, true, false, false] (initRot B apps)).log =
          [RotEvent.copied, RotEvent.signaled, RotEvent.waited, RotEvent.cleared] := rfl
      obtain ⟨h1, h2, h3, _, _, _⟩ :=
        runRot_appends apps (runRot [true, true, false, false] (initRot B apps)) hc4m
      have hsplit : runRot ([true, true, false, false] ++ (apps.map fun _ => false) ++ [true])
          (initRot B apps) =
          stepRot (runRot (apps.map fun _ => false)
            (runRot [true, true, false, false] (initRot B apps))) true := by
        rw [runRot_append, runRot_append]
        rfl
      obtain ⟨hw1, hw2, hw3, _⟩ := stepWriter_wwrite _ (h1.trans hc4w)
      have hlog5 : (runRot (apps.map fun _ => false)
          (runRot [true, true, false, false] (initRot B apps))).log =
          [RotEvent.copied, RotEvent.signaled, RotEvent.waited, RotEvent.cleared]
            ++ apps.map (fun _ => RotEvent.appended) := by
        rw [h3, hc4log]
      first
      | -- completion
        (refine ⟨?_, ?_⟩
         · rw [hsplit]
           exact hw1
         · rw [hsplit, hw2]
           exact h2)
      | -- cleared strictly before wrote
        (rw [hsplit, hw3, hlog5]
         have hclmem : RotEvent.cleared ∈
             [RotEvent.copied, RotEvent.signaled, RotEvent.waited, RotEvent.cleared]
               ++ apps.map (fun _ => RotEvent.appended) :=
           List.mem_append_left _ (by decide)
         have hwnot : RotEvent.wrote ∉
             [RotEvent.copied, RotEvent.signaled, RotEvent.waited, RotEvent.cleared]
               ++ apps.map (fun _ => RotEvent.appended) := by
           intro hx
           rcases List.mem_append.mp hx with hx | hx
           · exact absurd hx (by decide)
           · obtain ⟨a, _, ha⟩ := List.mem_map.mp hx
             exact RotEvent.noConfusion ha
         rw [List.indexOf_append_of_mem hclmem,
           List.indexOf_append_of_mem (show RotEvent.cleared ∈
             [RotEvent.copied, RotEvent.signaled, RotEvent.waited, RotEvent.cleared]
             by decide),
           indexOf_append_sing_self hwnot]
         simp)
    }

/-- Claim C3 witness: the order facts instantiated on a complete
concrete schedule with a one-row buffer and a one-row append tail, and
the existence of a schedule clearing before the write. -/
theorem rotation_signal_order_witness :
    (RotEvent.copied ∈ (runRot [true, true, false, false, false, true]
        (initRot [[1]] [[2]])).log ∧
      RotEvent.signaled ∈ (runRot [true, true, false, false, false, true]
        (initRot [[1]] [[2]])).log ∧
      RotEvent.wrote ∈ (runRot [true, true, false, false, false, true]
        (initRot [[1]] [[2]])).log ∧
      RotEvent.cleared ∈ (runRot [true, true, false, false, false, true]
        (initRot [[1]] [[2]])).log ∧
      (runRot [true, true, false, false, false, true]
        (initRot [[1]] [[2]])).log.indexOf RotEvent.copied <
        (runRot [true, true, false, false, false, true]
          (initRot [[1]] [[2]])).log.indexOf RotEvent.signaled ∧
      (runRot [true, true, false, false, false, true]
        (initRot [[1]] [[2]])).log.indexOf RotEvent.signaled <
        (runRot [true, true, false, false, false, true]
          (initRot [[1]] [[2]])).log.indexOf RotEvent.wrote ∧
      (runRot [true, true, false, false, false, true]
        (initRot [[1]] [[2]])).log.indexOf RotEvent.signaled <
        (runRot [true, true, false, false, false, true]
          (initRot [[1]] [[2]])).log.indexOf RotEvent.cleared) ∧
    (∃ sched, completedRot (runRot sched (initRot [[1]] [[2]])) ∧
      (runRot sched (initRot [[1]] [[2]])).log.indexOf RotEvent.cleared <
        (runRot sched (initRot [[1]] [[2]])).log.indexOf RotEvent.wrote) :=
  ⟨(rotation_signal_order [[1]] [[2]]).1 [true, true, false, false, false, true]
      (by decide),
    (rotation_signal_order [[1]] [[2]]).2⟩
